import Mathlib

/-!
Verification of the PageRank core (`pagerank.py`): the transition model,
the sampling estimator and the iterative solver, embedded shallowly over
exact rational arithmetic.  Python dicts with a fixed key set are modelled
as total functions read at the graph's nodes; dict iteration order is the
`pages` list; Python sets of links are `Finset`s.
-/

set_option maxHeartbeats 1000000

namespace PageRank

variable {α : Type} [DecidableEq α]

/-- The link graph handed to the core: the dict `corpus`.  `pages` is the
list of keys in dict insertion order (keys of a dict are distinct, hence
the bundled `Nodup`); `links p` is the set `corpus[p]` of pages `p` links
to. -/
structure Corpus (α : Type) [DecidableEq α] where
  pages : List α
  links : α → Finset α
  nodup : pages.Nodup

/-- `transition_model(corpus, page, damping_factor)` from `pagerank.py`:
if `corpus[page]` is non-empty every linked key gets
`damping_factor/len(links) + (1-damping_factor)/len(corpus)` and every
other key gets `(1-damping_factor)/len(corpus)`; if `corpus[page]` is
empty every key gets `1/len(corpus)`. -/
def transition_model (c : Corpus α) (page : α) (damping_factor : ℚ) : α → ℚ :=
  fun key =>
    if c.links page = ∅ then
      1 / (c.pages.length : ℚ)
    else if key ∈ c.links page then
      damping_factor / ((c.links page).card : ℚ) + (1 - damping_factor) / (c.pages.length : ℚ)
    else
      (1 - damping_factor) / (c.pages.length : ℚ)

/-- The per-page update inside `iterate_pagerank`'s sweep:
`new_rank = (1-d)/N + d * sum`, where `sum` is accumulated by the inner
`for link in corpus` loop, adding `page_distribution[link]/len(corpus[link])`
for every `link` whose out-set contains `page`. -/
def updatePage (c : Corpus α) (d : ℚ) (r : α → ℚ) (page : α) : ℚ :=
  (1 - d) / (c.pages.length : ℚ) +
    d * c.pages.foldl
      (fun acc link =>
        if page ∈ c.links link then acc + r link / ((c.links link).card : ℚ) else acc)
      0

/-- One step of the `for page in corpus` loop of `iterate_pagerank`: the
state is the dict `page_distribution` (a function) together with
`convergence_count`; the count is bumped when `|new_rank - old| < 0.001`,
then `page_distribution[page] = new_rank` is written in place. -/
def sweepStep (c : Corpus α) (d : ℚ) (st : (α → ℚ) × ℕ) (page : α) : (α → ℚ) × ℕ :=
  let new_rank := updatePage c d st.1 page
  let cc := if |new_rank - st.1 page| < 1/1000 then st.2 + 1 else st.2
  (fun q => if q = page then new_rank else st.1 q, cc)

/-- One full pass of the `while True` body of `iterate_pagerank`:
`convergence_count` starts at 0 and the pages are processed in dict
order, updating the shared dict in place. -/
def sweep (c : Corpus α) (d : ℚ) (r : α → ℚ) : (α → ℚ) × ℕ :=
  c.pages.foldl (sweepStep c d) (r, 0)

/-- The `while True` loop of `iterate_pagerank`, with fuel making the
possibly non-terminating loop total: `none` means the fuel ran out, which
the unbounded Python loop has no analogue of; `some` results are exactly
the returns of the Python loop.  The loop exits when
`convergence_count == num_pages` after a sweep. -/
def iterateLoop (c : Corpus α) (d : ℚ) : ℕ → (α → ℚ) → Option (α → ℚ)
  | 0, _ => none
  | fuel + 1, r =>
    let st := sweep c d r
    if st.2 = c.pages.length then some st.1 else iterateLoop c d fuel st.1

/-- `iterate_pagerank(corpus, damping_factor)` from `pagerank.py`: every
page starts at `1/num_pages`, then sweeps run until every page moved by
less than 0.001.  The returned mapping is read at the pages of the
corpus. -/
def iterate_pagerank (c : Corpus α) (d : ℚ) (fuel : ℕ) : Option (α → ℚ) :=
  iterateLoop c d fuel (fun _ => 1 / (c.pages.length : ℚ))

/-- Modelled from the spec: one synchronous (Jacobi) sweep, in which every
page's new rank is computed from the previous sweep's values for all
pages — the reference recurrence the spec says a code sweep equals. -/
def syncSweep (c : Corpus α) (d : ℚ) (r : α → ℚ) : α → ℚ :=
  fun p => updatePage c d r p

/-- In-place (Gauss-Seidel) sweep in page order: each update reads the
state already rewritten by the updates before it in the same sweep. -/
def gsSweepAux (c : Corpus α) (d : ℚ) : List α → (α → ℚ) → (α → ℚ)
  | [], r => r
  | p :: rest, r =>
      gsSweepAux c d rest (fun q => if q = p then updatePage c d r p else r q)

/-- `random.choices(population, weights)[0]`: with `r` standing for the
uniform variate already scaled by the total weight, the first element
whose cumulative weight exceeds `r` is chosen, clamped to the last
element (as Python's bisect-based implementation clamps its index). -/
def pickWeighted : List (α × ℚ) → ℚ → α → α
  | [], _, dflt => dflt
  | [(a, _)], _, _ => a
  | (a, w) :: b :: rest, r, dflt =>
      if r < w then a else pickWeighted (b :: rest) (r - w) dflt

/-- One draw of the sampler's loop: the transition model for the current
page `s` is computed and the next page is drawn from it over the dict's
key order, with `r` the scaled uniform variate of this step. -/
def sampleStep (c : Corpus α) (d : ℚ) (s : α) (r : ℚ) : α :=
  pickWeighted (c.pages.map (fun p => (p, transition_model c s d p))) r s

/-- The `for i in range(1, n)` loop of `sample_pagerank`: at step `i` the
current page's count is bumped, then the next page is drawn.  `i` indexes
the random stream, `steps` is the number of iterations left. -/
def sampleLoop (c : Corpus α) (d : ℚ) (rand : ℕ → ℚ) :
    ℕ → ℕ → α → (α → ℕ) → α → ℕ
  | _, 0, _, counts => counts
  | i, steps + 1, s, counts =>
      sampleLoop c d rand (i + 1) steps (sampleStep c d s (rand i))
        (fun p => if p = s then counts p + 1 else counts p)

/-- `sample_pagerank(corpus, damping_factor, n)` from `pagerank.py`.
`start` stands for the result of `random.choice(list(corpus.keys()))` and
`rand i` for the scaled uniform variate consumed by the i-th
`random.choices` call.  `none` models the uncaught Python exceptions: the
`IndexError` of `random.choice` on an empty corpus, and the
`ZeroDivisionError` of the final `/= n` normalisation when `n = 0`. -/
def sample_pagerank (c : Corpus α) (d : ℚ) (n : ℕ) (start : α) (rand : ℕ → ℚ) :
    Option (α → ℚ) :=
  if c.pages.isEmpty then none
  else if n = 0 then none
  else some (fun p => ((sampleLoop c d rand 0 (n - 1) start (fun _ => 0) p : ℕ) : ℚ) / (n : ℚ))

/-- The sequence of pages visited by the sampler's random walk:
position 0 is the start page and position `i+1` is drawn from the
transition model at position `i`. -/
def walkFrom (c : Corpus α) (d : ℚ) (start : α) (rand : ℕ → ℚ) : ℕ → α
  | 0 => start
  | i + 1 => sampleStep c d (walkFrom c d start rand i) (rand i)

/-- A concrete three-page corpus used for witnesses: 0 links to 1 and 2,
1 links to 2, and 2 is a dead end. -/
def corpus3 : Corpus ℕ where
  pages := [0, 1, 2]
  links := fun p => if p = 0 then {1, 2} else if p = 1 then {2} else ∅
  nodup := by decide

/-- The two-page cycle: 0 links to 1 and 1 links to 0. -/
def corpus2 : Corpus ℕ where
  pages := [0, 1]
  links := fun p => if p = 0 then {1} else {0}
  nodup := by decide

/-- The chain 0 → 1 → 2 with 2 a dead end. -/
def chain3 : Corpus ℕ where
  pages := [0, 1, 2]
  links := fun p => if p = 0 then {1} else if p = 1 then {2} else ∅
  nodup := by decide

/-- A single isolated page with no outgoing links. -/
def singleC : Corpus ℕ where
  pages := [0]
  links := fun _ => ∅
  nodup := by decide

/-- The corpus with no pages at all. -/
def emptyC : Corpus ℕ where
  pages := []
  links := fun _ => ∅
  nodup := List.nodup_nil

theorem length_pos_of_mem {c : Corpus α} {p : α} (hp : p ∈ c.pages) :
    0 < c.pages.length :=
  List.length_pos.mpr (List.ne_nil_of_mem hp)

/-- C1: for a graph of `N` pages, a member page `p` and damping `d ∈ (0,1)`,
the transition model gives each of the `L` pages in a non-empty out-set
`d/L + (1-d)/N` and every other page `(1-d)/N`; for an empty out-set it
gives every page `1/N`. -/
theorem transition_model_cases (c : Corpus α) (p : α) (d : ℚ)
    (hp : p ∈ c.pages) (hd0 : 0 < d) (hd1 : d < 1) :
    (c.links p ≠ ∅ →
      ∀ q, transition_model c p d q =
        if q ∈ c.links p then
          d / ((c.links p).card : ℚ) + (1 - d) / (c.pages.length : ℚ)
        else (1 - d) / (c.pages.length : ℚ)) ∧
    (c.links p = ∅ →
      ∀ q, transition_model c p d q = 1 / (c.pages.length : ℚ)) := by
  constructor
  · intro hne q
    simp [transition_model, hne]
  · intro he q
    simp [transition_model, he]

theorem transition_model_cases_witness :
    (0 ∈ corpus3.pages ∧ 0 < (17 : ℚ)/20 ∧ (17 : ℚ)/20 < 1) ∧
    (corpus3.links 0 ≠ ∅ →
      ∀ q, transition_model corpus3 0 ((17 : ℚ)/20) q =
        if q ∈ corpus3.links 0 then
          (17 : ℚ)/20 / ((corpus3.links 0).card : ℚ) + (1 - (17 : ℚ)/20) / (corpus3.pages.length : ℚ)
        else (1 - (17 : ℚ)/20) / (corpus3.pages.length : ℚ)) ∧
    (corpus3.links 0 = ∅ →
      ∀ q, transition_model corpus3 0 ((17 : ℚ)/20) q = 1 / (corpus3.pages.length : ℚ)) :=
  ⟨⟨by decide, by norm_num, by norm_num⟩,
    transition_model_cases corpus3 0 ((17 : ℚ)/20) (by decide) (by norm_num) (by norm_num)⟩

/-- C9: for a member page and damping `d ∈ (0,1)`, every probability the
transition model assigns to a page of the graph is at least `(1-d)/N`,
which is strictly positive. -/
theorem transition_model_pos (c : Corpus α) (p q : α) (d : ℚ)
    (hp : p ∈ c.pages) (hq : q ∈ c.pages) (hd0 : 0 < d) (hd1 : d < 1) :
    0 < (1 - d) / (c.pages.length : ℚ) ∧
    (1 - d) / (c.pages.length : ℚ) ≤ transition_model c p d q := by
  have hN : 0 < (c.pages.length : ℚ) := by
    exact_mod_cast length_pos_of_mem hp
  have hsplit : 0 < (1 - d) / (c.pages.length : ℚ) :=
    div_pos (by linarith) hN
  refine ⟨hsplit, ?_⟩
  simp only [transition_model]
  by_cases he : c.links p = ∅
  · rw [if_pos he]
    exact (div_le_div_right hN).mpr (by linarith)
  · rw [if_neg he]
    by_cases hm : q ∈ c.links p
    · rw [if_pos hm]
      have hL : 0 < ((c.links p).card : ℚ) := by
        have h' : (c.links p).Nonempty := Finset.nonempty_iff_ne_empty.mpr he
        exact_mod_cast Finset.card_pos.mpr h'
      have hdl : 0 ≤ d / ((c.links p).card : ℚ) := le_of_lt (div_pos hd0 hL)
      linarith
    · rw [if_neg hm]

theorem transition_model_pos_witness :
    (0 ∈ corpus3.pages ∧ 2 ∈ corpus3.pages ∧ 0 < (17 : ℚ)/20 ∧ (17 : ℚ)/20 < 1) ∧
    (0 < (1 - (17 : ℚ)/20) / (corpus3.pages.length : ℚ) ∧
      (1 - (17 : ℚ)/20) / (corpus3.pages.length : ℚ) ≤ transition_model corpus3 0 ((17 : ℚ)/20) 2) :=
  ⟨⟨by decide, by decide, by norm_num, by norm_num⟩,
    transition_model_pos corpus3 0 2 ((17 : ℚ)/20) (by decide) (by decide) (by norm_num) (by norm_num)⟩

theorem foldl_if_add_eq (P : α → Prop) [DecidablePred P] (f : α → ℚ) :
    ∀ (l : List α) (a : ℚ),
      l.foldl (fun acc x => if P x then acc + f x else acc) a
        = a + ((l.filter (fun x => P x)).map f).sum := by
  intro l
  induction l with
  | nil => intro a; simp
  | cons x xs ih =>
    intro a
    by_cases hx : P x
    · simp only [List.foldl_cons, if_pos hx, List.filter_cons, decide_eq_true hx, ite_true,
        List.map_cons, List.sum_cons, ih]
      ring
    · simp only [List.foldl_cons, if_neg hx, List.filter_cons, decide_eq_false hx,
        Bool.false_eq_true, ite_false, ih]

/-- C2: every per-node update of the iterative solver computes
`(1-d)/N + d * Σ_{q : p ∈ out(q)} rank(q)/|out(q)|`, summing over the
pages whose out-set contains `p`; a dead-end page (empty out-set) can
never satisfy `p ∈ out(q)`, so dead ends are never part of the sum and
their mass is not redistributed. -/
theorem updatePage_closed_form (c : Corpus α) (d : ℚ) (r : α → ℚ) (p : α) :
    updatePage c d r p =
      (1 - d) / (c.pages.length : ℚ) +
        d * ((c.pages.filter (fun q => p ∈ c.links q)).map
              (fun q => r q / ((c.links q).card : ℚ))).sum ∧
    (c.pages.filter (fun q => p ∈ c.links q))
      = (c.pages.filter (fun q => p ∈ c.links q ∧ c.links q ≠ ∅)) := by
  constructor
  · unfold updatePage
    rw [foldl_if_add_eq (fun q => p ∈ c.links q) (fun q => r q / ((c.links q).card : ℚ))]
    ring
  · apply List.filter_congr
    intro q hq
    simp only [decide_eq_decide]
    constructor
    · intro hm
      refine ⟨hm, fun he => ?_⟩
      rw [he] at hm
      exact absurd hm (Finset.not_mem_empty p)
    · exact fun h => h.1

theorem sweep_fold_fst_eq_gs (c : Corpus α) (d : ℚ) :
    ∀ (l : List α) (r : α → ℚ) (k : ℕ),
      (l.foldl (sweepStep c d) (r, k)).1 = gsSweepAux c d l r := by
  intro l
  induction l with
  | nil => intro r k; rfl
  | cons p rest ih =>
    intro r k
    rw [List.foldl_cons]
    exact ih _ _

/-- C3 counterexample: on the chain 0→1→2 from uniform ranks 1/3 with
d = 17/20, the code's sweep gives page 1 the value 37/400 (it reads
page 0's value already rewritten to 1/20 earlier in the same sweep),
while the synchronous (Jacobi) sweep gives 1/3: one sweep of the code is
not one sweep of the synchronous reference recurrence. -/
theorem sweep_ne_syncSweep :
    (sweep chain3 ((17 : ℚ)/20) (fun _ => 1/3)).1 1 = 37/400 ∧
    syncSweep chain3 ((17 : ℚ)/20) (fun _ => 1/3) 1 = 1/3 ∧
    (37/400 : ℚ) ≠ 1/3 := by
  refine ⟨?_, ?_, by norm_num⟩
  · norm_num [sweep, sweepStep, updatePage, chain3]
  · norm_num [syncSweep, updatePage, chain3]

/-- C3 amended: one sweep of the code equals one sweep of the in-place
(Gauss-Seidel) recurrence in dict page order: each page's update reads
the state in which the pages earlier in the order have already been
rewritten in the same sweep. -/
theorem sweep_eq_gsSweep (c : Corpus α) (d : ℚ) (r : α → ℚ) :
    (sweep c d r).1 = gsSweepAux c d c.pages r :=
  sweep_fold_fst_eq_gs c d c.pages r 0

theorem sweep_fold_untouched (c : Corpus α) (d : ℚ) :
    ∀ (l : List α) (st : (α → ℚ) × ℕ) (p : α), p ∉ l →
      (l.foldl (sweepStep c d) st).1 p = st.1 p := by
  intro l
  induction l with
  | nil => intro st p _; rfl
  | cons q rest ih =>
    intro st p hp
    rw [List.foldl_cons, ih _ p (fun h => hp (List.mem_cons_of_mem q h))]
    have hpq : p ≠ q := fun h => hp (h ▸ List.mem_cons_self q rest)
    simp only [sweepStep, if_neg hpq]

theorem sweep_fold_count_le (c : Corpus α) (d : ℚ) :
    ∀ (l : List α) (st : (α → ℚ) × ℕ),
      (l.foldl (sweepStep c d) st).2 ≤ st.2 + l.length := by
  intro l
  induction l with
  | nil => intro st; simp
  | cons q rest ih =>
    intro st
    rw [List.foldl_cons, List.length_cons]
    have h2 : (sweepStep c d st q).2 ≤ st.2 + 1 := by
      simp only [sweepStep]
      split <;> omega
    have h3 := ih (sweepStep c d st q)
    omega

theorem sweep_fold_converged (c : Corpus α) (d : ℚ) :
    ∀ (l : List α) (st : (α → ℚ) × ℕ), l.Nodup →
      (l.foldl (sweepStep c d) st).2 = st.2 + l.length →
      ∀ p ∈ l, |(l.foldl (sweepStep c d) st).1 p - st.1 p| < 1/1000 := by
  intro l
  induction l with
  | nil => intro st _ _ p hp; exact absurd hp (List.not_mem_nil p)
  | cons q rest ih =>
    intro st hnd hcount p hp
    rw [List.foldl_cons] at hcount ⊢
    have hq_notin : q ∉ rest := (List.nodup_cons.mp hnd).1
    by_cases hq : |updatePage c d st.1 q - st.1 q| < 1/1000
    · have hsnd : (sweepStep c d st q).2 = st.2 + 1 := by
        simp only [sweepStep, if_pos hq]
      rcases List.mem_cons.mp hp with hpq | hpr
      · subst hpq
        rw [sweep_fold_untouched c d rest _ p hq_notin]
        have hfst : (sweepStep c d st p).1 p = updatePage c d st.1 p := by
          simp [sweepStep]
        rw [hfst]
        exact hq
      · have hpq : p ≠ q := fun h => hq_notin (h ▸ hpr)
        have hfst : (sweepStep c d st q).1 p = st.1 p := by
          simp only [sweepStep, if_neg hpq]
        have hres := ih (sweepStep c d st q) (List.nodup_cons.mp hnd).2
          (by rw [hsnd]; rw [List.length_cons] at hcount; omega) p hpr
        rw [hfst] at hres
        exact hres
    · exfalso
      have hle := sweep_fold_count_le c d rest (sweepStep c d st q)
      have hsnd : (sweepStep c d st q).2 = st.2 := by
        simp only [sweepStep, if_neg hq]
      rw [hsnd] at hle
      rw [List.length_cons] at hcount
      omega

theorem iterateLoop_converged (c : Corpus α) (d : ℚ) :
    ∀ (fuel : ℕ) (r₀ final : α → ℚ),
      iterateLoop c d fuel r₀ = some final →
      ∃ r, final = (sweep c d r).1 ∧ ∀ p ∈ c.pages, |final p - r p| < 1/1000 := by
  intro fuel
  induction fuel with
  | zero =>
    intro r₀ final h
    exact absurd h (by simp [iterateLoop])
  | succ k ih =>
    intro r₀ final h
    simp only [iterateLoop] at h
    split at h
    case isTrue hc =>
      have hfin : (sweep c d r₀).1 = final := Option.some.inj h
      refine ⟨r₀, hfin.symm, ?_⟩
      intro p hp
      rw [← hfin]
      have hcnt : (c.pages.foldl (sweepStep c d) ((r₀, 0) : (α → ℚ) × ℕ)).2
          = ((r₀, 0) : (α → ℚ) × ℕ).2 + c.pages.length := by
        have : (sweep c d r₀).2 = c.pages.length := hc
        simpa [sweep] using this
      have hres := sweep_fold_converged c d c.pages (r₀, 0) c.nodup hcnt p hp
      simpa [sweep] using hres
    case isFalse hc =>
      exact ih _ final h

/-- C7: whenever the iterative solver returns, the returned mapping is the
result of one final code sweep from some pre-sweep ranks `r`, and that
sweep left every page within tolerance: for every page of the graph the
returned rank differs from the value the page held before its update in
that sweep by strictly less than 0.001. -/
theorem iterate_pagerank_converged (c : Corpus α) (d : ℚ) (fuel : ℕ) (final : α → ℚ)
    (h : iterate_pagerank c d fuel = some final) :
    ∃ r, final = (sweep c d r).1 ∧ ∀ p ∈ c.pages, |final p - r p| < 1/1000 :=
  iterateLoop_converged c d fuel _ final h

theorem foldl_sum_congr (c : Corpus α) (p : α) (r r' : α → ℚ) :
    ∀ (l : List α), (∀ q ∈ l, r q = r' q) → ∀ a : ℚ,
      l.foldl (fun acc link =>
        if p ∈ c.links link then acc + r link / ((c.links link).card : ℚ) else acc) a
        = l.foldl (fun acc link =>
            if p ∈ c.links link then acc + r' link / ((c.links link).card : ℚ) else acc) a := by
  intro l
  induction l with
  | nil => intro _ a; rfl
  | cons x xs ih =>
    intro h a
    rw [List.foldl_cons, List.foldl_cons, h x (List.mem_cons_self x xs)]
    exact ih (fun q hq => h q (List.mem_cons_of_mem x hq)) _

theorem updatePage_congr (c : Corpus α) (d : ℚ) (r r' : α → ℚ) (p : α)
    (h : ∀ q ∈ c.pages, r q = r' q) :
    updatePage c d r p = updatePage c d r' p := by
  unfold updatePage
  rw [foldl_sum_congr c p r r' c.pages h 0]

theorem sweep_fold_fixed (c : Corpus α) (d : ℚ) (r : α → ℚ)
    (hfix : ∀ p ∈ c.pages, updatePage c d r p = r p) :
    ∀ (l : List α), (∀ p ∈ l, p ∈ c.pages) →
      ∀ (st : (α → ℚ) × ℕ), (∀ q, st.1 q = r q) →
        (∀ q, (l.foldl (sweepStep c d) st).1 q = r q) ∧
        (l.foldl (sweepStep c d) st).2 = st.2 + l.length := by
  intro l
  induction l with
  | nil => intro _ st hst; exact ⟨hst, by simp⟩
  | cons x xs ih =>
    intro hl st hst
    rw [List.foldl_cons]
    have hx : x ∈ c.pages := hl x (List.mem_cons_self x xs)
    have hupd : updatePage c d st.1 x = r x := by
      rw [updatePage_congr c d st.1 r x (fun q _ => hst q)]
      exact hfix x hx
    have hdiff : |updatePage c d st.1 x - st.1 x| < 1/1000 := by
      rw [hupd, hst x]
      norm_num
    have hst' : ∀ q, (sweepStep c d st x).1 q = r q := by
      intro q
      by_cases hqx : q = x
      · subst hqx
        have h1 : (sweepStep c d st q).1 q = updatePage c d st.1 q := by
          simp [sweepStep]
        rw [h1, hupd]
      · have h1 : (sweepStep c d st x).1 q = st.1 q := by
          simp only [sweepStep, if_neg hqx]
        rw [h1, hst q]
    have hsnd : (sweepStep c d st x).2 = st.2 + 1 := by
      simp only [sweepStep, if_pos hdiff]
    obtain ⟨h1, h2⟩ := ih (fun p hp => hl p (List.mem_cons_of_mem x hp)) _ hst'
    refine ⟨h1, ?_⟩
    rw [h2, hsnd, List.length_cons]
    omega

/-- If the uniform initial ranks are an exact fixed point of the per-page
update, the very first sweep leaves every page unchanged, so the loop
returns after one sweep with those ranks. -/
theorem iterate_fixed_point (c : Corpus α) (d : ℚ) (fuel : ℕ) (hf : 1 ≤ fuel)
    (hfix : ∀ p ∈ c.pages,
      updatePage c d (fun _ => 1 / (c.pages.length : ℚ)) p = 1 / (c.pages.length : ℚ)) :
    ∃ m, iterate_pagerank c d fuel = some m ∧ ∀ q, m q = 1 / (c.pages.length : ℚ) := by
  obtain ⟨k, rfl⟩ : ∃ k, fuel = k + 1 := ⟨fuel - 1, by omega⟩
  unfold iterate_pagerank
  simp only [iterateLoop]
  obtain ⟨h1, h2⟩ := sweep_fold_fixed c d (fun _ => 1 / (c.pages.length : ℚ)) hfix
    c.pages (fun p hp => hp) ((fun _ => 1 / (c.pages.length : ℚ)), 0) (fun _ => rfl)
  have hcond : (sweep c d (fun _ => 1 / (c.pages.length : ℚ))).2 = c.pages.length := by
    simpa [sweep] using h2
  rw [if_pos hcond]
  refine ⟨_, rfl, ?_⟩
  intro q
  simpa [sweep] using h1 q

theorem corpus2_fix (d : ℚ) :
    ∀ p ∈ corpus2.pages,
      updatePage corpus2 d (fun _ => 1 / (corpus2.pages.length : ℚ)) p
        = 1 / (corpus2.pages.length : ℚ) := by
  intro p hp
  have hp' : p = 0 ∨ p = 1 := by
    simpa [corpus2] using hp
  rcases hp' with rfl | rfl <;>
    (norm_num [updatePage, corpus2]; ring_nf)

theorem iterate_pagerank_converged_witness :
    ∃ final, iterate_pagerank corpus2 ((17 : ℚ)/20) 1 = some final ∧
      ∃ r, final = (sweep corpus2 ((17 : ℚ)/20) r).1 ∧
        ∀ p ∈ corpus2.pages, |final p - r p| < 1/1000 := by
  obtain ⟨m, hm, _⟩ :=
    iterate_fixed_point corpus2 ((17 : ℚ)/20) 1 le_rfl (corpus2_fix ((17 : ℚ)/20))
  exact ⟨m, hm, iterate_pagerank_converged corpus2 ((17 : ℚ)/20) 1 m hm⟩

/-- C8: on the two-page cycle 0→1, 1→0, for every damping `d ∈ (0,1)`:
the iterative solver returns rank exactly 1/2 for each page, independent
of `d`; and the uniform vector (1/2, 1/2) is stationary under the
transition model's kernel, i.e. it is the distribution the sampling
estimator's random walk visit frequencies converge to. -/
theorem two_cycle_half (d : ℚ) (fuel : ℕ) (hd0 : 0 < d) (hd1 : d < 1) (hf : 1 ≤ fuel) :
    (∃ m, iterate_pagerank corpus2 d fuel = some m ∧ m 0 = 1/2 ∧ m 1 = 1/2) ∧
    (∀ p ∈ corpus2.pages,
      1/2 * transition_model corpus2 0 d p + 1/2 * transition_model corpus2 1 d p = 1/2) := by
  constructor
  · obtain ⟨m, hm, hval⟩ := iterate_fixed_point corpus2 d fuel hf (corpus2_fix d)
    refine ⟨m, hm, ?_, ?_⟩
    · rw [hval 0]; norm_num [corpus2]
    · rw [hval 1]; norm_num [corpus2]
  · intro p hp
    have hp' : p = 0 ∨ p = 1 := by simpa [corpus2] using hp
    rcases hp' with rfl | rfl <;>
      (norm_num [transition_model, corpus2, Finset.singleton_ne_empty]; ring_nf)

theorem two_cycle_half_witness :
    (0 < (17 : ℚ)/20 ∧ (17 : ℚ)/20 < 1 ∧ 1 ≤ 1) ∧
    ((∃ m, iterate_pagerank corpus2 ((17 : ℚ)/20) 1 = some m ∧ m 0 = 1/2 ∧ m 1 = 1/2) ∧
      (∀ p ∈ corpus2.pages,
        1/2 * transition_model corpus2 0 ((17 : ℚ)/20) p
          + 1/2 * transition_model corpus2 1 ((17 : ℚ)/20) p = 1/2)) :=
  ⟨⟨by norm_num, by norm_num, le_rfl⟩,
    two_cycle_half ((17 : ℚ)/20) 1 (by norm_num) (by norm_num) le_rfl⟩

theorem foldl_sum_nonneg (c : Corpus α) (p : α) (r : α → ℚ) :
    ∀ (l : List α), (∀ q ∈ l, 0 ≤ r q) → ∀ a : ℚ, 0 ≤ a →
      0 ≤ l.foldl (fun acc link =>
        if p ∈ c.links link then acc + r link / ((c.links link).card : ℚ) else acc) a := by
  intro l
  induction l with
  | nil => intro _ a ha; exact ha
  | cons x xs ih =>
    intro h a ha
    rw [List.foldl_cons]
    by_cases hx : p ∈ c.links x
    · rw [if_pos hx]
      refine ih (fun q hq => h q (List.mem_cons_of_mem x hq)) _ ?_
      have hrx : 0 ≤ r x := h x (List.mem_cons_self x xs)
      have hterm : 0 ≤ r x / ((c.links x).card : ℚ) :=
        div_nonneg hrx (Nat.cast_nonneg _)
      linarith
    · rw [if_neg hx]
      exact ih (fun q hq => h q (List.mem_cons_of_mem x hq)) _ ha

theorem updatePage_lower (c : Corpus α) (d : ℚ) (r : α → ℚ) (p : α)
    (hd0 : 0 ≤ d) (hr : ∀ q ∈ c.pages, 0 ≤ r q) :
    (1 - d) / (c.pages.length : ℚ) ≤ updatePage c d r p := by
  unfold updatePage
  have hs := foldl_sum_nonneg c p r c.pages hr 0 le_rfl
  nlinarith [mul_nonneg hd0 hs]

theorem sweep_fold_lower (c : Corpus α) (d : ℚ) (hd0 : 0 ≤ d) (hd1 : d ≤ 1) :
    ∀ (l : List α), l.Nodup →
      ∀ (st : (α → ℚ) × ℕ), (∀ q ∈ c.pages, 0 ≤ st.1 q) →
        (∀ q ∈ c.pages, 0 ≤ (l.foldl (sweepStep c d) st).1 q) ∧
        (∀ p ∈ l, (1 - d) / (c.pages.length : ℚ) ≤ (l.foldl (sweepStep c d) st).1 p) := by
  intro l
  induction l with
  | nil =>
    intro _ st hst
    exact ⟨hst, fun p hp => absurd hp (List.not_mem_nil p)⟩
  | cons x xs ih =>
    intro hnd st hst
    rw [List.foldl_cons]
    have hub : (1 - d) / (c.pages.length : ℚ) ≤ updatePage c d st.1 x :=
      updatePage_lower c d st.1 x hd0 hst
    have h0 : 0 ≤ (1 - d) / (c.pages.length : ℚ) :=
      div_nonneg (by linarith) (Nat.cast_nonneg _)
    have hst' : ∀ q ∈ c.pages, 0 ≤ (sweepStep c d st x).1 q := by
      intro q hq
      by_cases hqx : q = x
      · subst hqx
        have h1 : (sweepStep c d st q).1 q = updatePage c d st.1 q := by
          simp [sweepStep]
        rw [h1]
        linarith
      · have h1 : (sweepStep c d st x).1 q = st.1 q := by
          simp only [sweepStep, if_neg hqx]
        rw [h1]
        exact hst q hq
    obtain ⟨ha, hb⟩ := ih (List.nodup_cons.mp hnd).2 (sweepStep c d st x) hst'
    refine ⟨ha, ?_⟩
    intro p hp
    rcases List.mem_cons.mp hp with rfl | hpr
    · rw [sweep_fold_untouched c d xs _ p (List.nodup_cons.mp hnd).1]
      have h1 : (sweepStep c d st p).1 p = updatePage c d st.1 p := by
        simp [sweepStep]
      rw [h1]
      exact hub
    · exact hb p hpr

theorem iterateLoop_lower (c : Corpus α) (d : ℚ) (hd0 : 0 ≤ d) (hd1 : d ≤ 1) :
    ∀ (fuel : ℕ) (r₀ final : α → ℚ), (∀ q ∈ c.pages, 0 ≤ r₀ q) →
      iterateLoop c d fuel r₀ = some final →
      ∀ p ∈ c.pages, (1 - d) / (c.pages.length : ℚ) ≤ final p := by
  intro fuel
  induction fuel with
  | zero =>
    intro r₀ final _ h
    exact absurd h (by simp [iterateLoop])
  | succ k ih =>
    intro r₀ final h0 h
    simp only [iterateLoop] at h
    obtain ⟨ha, hb⟩ := sweep_fold_lower c d hd0 hd1 c.pages c.nodup (r₀, 0) h0
    split at h
    case isTrue hc =>
      have hfin : (sweep c d r₀).1 = final := Option.some.inj h
      intro p hp
      rw [← hfin]
      have hres := hb p hp
      simpa [sweep] using hres
    case isFalse hc =>
      refine ih (sweep c d r₀).1 final ?_ h
      intro q hq
      have hres := ha q hq
      simpa [sweep] using hres

/-- C10: for a non-empty graph and damping `d ∈ (0,1)`, whenever the
iterative solver returns a mapping, every page's returned rank is at
least `(1-d)/N`: the returned ranks come out of a full sweep, and every
per-page update of a sweep writes a value of at least `(1-d)/N`. -/
theorem iterate_pagerank_lower (c : Corpus α) (d : ℚ) (fuel : ℕ) (final : α → ℚ)
    (hne : c.pages ≠ []) (hd0 : 0 < d) (hd1 : d < 1)
    (h : iterate_pagerank c d fuel = some final) :
    ∀ p ∈ c.pages, (1 - d) / (c.pages.length : ℚ) ≤ final p := by
  refine iterateLoop_lower c d (le_of_lt hd0) (le_of_lt hd1) fuel _ final ?_ h
  intro q hq
  positivity

theorem iterate_pagerank_lower_witness :
    ∃ final, iterate_pagerank corpus2 ((17 : ℚ)/20) 1 = some final ∧
      ∀ p ∈ corpus2.pages, (1 - (17 : ℚ)/20) / (corpus2.pages.length : ℚ) ≤ final p := by
  obtain ⟨m, hm, _⟩ :=
    iterate_fixed_point corpus2 ((17 : ℚ)/20) 1 le_rfl (corpus2_fix ((17 : ℚ)/20))
  exact ⟨m, hm, iterate_pagerank_lower corpus2 ((17 : ℚ)/20) 1 m (by decide)
    (by norm_num) (by norm_num) hm⟩

theorem pickWeighted_mem (dflt : α) :
    ∀ (l : List (α × ℚ)) (r : ℚ), l ≠ [] →
      pickWeighted l r dflt ∈ l.map Prod.fst := by
  intro l
  induction l with
  | nil => intro r h; exact absurd rfl h
  | cons x xs ih =>
    intro r _
    obtain ⟨a, w⟩ := x
    cases xs with
    | nil => simp [pickWeighted]
    | cons b rest =>
      by_cases hr : r < w
      · simp [pickWeighted, hr]
      · have hmem := ih (r - w) (by simp)
        simp only [pickWeighted, if_neg hr, List.map_cons]
        exact List.mem_cons_of_mem _ hmem

theorem sampleStep_mem (c : Corpus α) (d : ℚ) (s : α) (r : ℚ) (hne : c.pages ≠ []) :
    sampleStep c d s r ∈ c.pages := by
  have hmap : (c.pages.map (fun p => (p, transition_model c s d p))) ≠ [] := by
    simpa using hne
  have h := pickWeighted_mem s (c.pages.map (fun p => (p, transition_model c s d p))) r hmap
  simpa [List.map_map, Function.comp] using h

theorem walkFrom_mem (c : Corpus α) (d : ℚ) (start : α) (rand : ℕ → ℚ)
    (hne : c.pages ≠ []) (hstart : start ∈ c.pages) :
    ∀ i, walkFrom c d start rand i ∈ c.pages := by
  intro i
  induction i with
  | zero => exact hstart
  | succ k _ =>
    simp only [walkFrom]
    exact sampleStep_mem c d _ _ hne

theorem sampleLoop_eq_tally (c : Corpus α) (d : ℚ) (start : α) (rand : ℕ → ℚ) :
    ∀ (steps i : ℕ) (counts : α → ℕ) (p : α),
      sampleLoop c d rand i steps (walkFrom c d start rand i) counts p
        = counts p + ((List.range' i steps).filter
            (fun j => walkFrom c d start rand j = p)).length := by
  intro steps
  induction steps with
  | zero => intro i counts p; simp [sampleLoop]
  | succ k ih =>
    intro i counts p
    rw [sampleLoop]
    have hnext : sampleStep c d (walkFrom c d start rand i) (rand i)
        = walkFrom c d start rand (i + 1) := rfl
    rw [hnext, ih (i + 1)]
    rw [List.range'_succ, List.filter_cons]
    by_cases hw : walkFrom c d start rand i = p
    · rw [if_pos hw.symm, if_pos (by simp [hw]), List.length_cons]
      omega
    · rw [if_neg (fun h : p = walkFrom c d start rand i => hw h.symm),
        if_neg (by simp [hw])]

theorem sum_indicator_zero (x : α) :
    ∀ (l : List α), x ∉ l →
      (l.map (fun p => if x = p then (1 : ℕ) else 0)).sum = 0 := by
  intro l
  induction l with
  | nil => intro _; rfl
  | cons q rest ih =>
    intro hx
    rw [List.map_cons, List.sum_cons,
      if_neg (fun h : x = q => hx (by rw [h]; exact List.mem_cons_self q rest)),
      ih (fun h => hx (List.mem_cons_of_mem q h))]

theorem sum_indicator (x : α) :
    ∀ (pages : List α), pages.Nodup → x ∈ pages →
      (pages.map (fun p => if x = p then (1 : ℕ) else 0)).sum = 1 := by
  intro pages
  induction pages with
  | nil => intro _ hx; exact absurd hx (List.not_mem_nil x)
  | cons q rest ih =>
    intro hnd hx
    rw [List.map_cons, List.sum_cons]
    rcases List.mem_cons.mp hx with rfl | hxr
    · rw [if_pos rfl, sum_indicator_zero x rest (List.nodup_cons.mp hnd).1]
    · have hxq : x ≠ q := fun h => (List.nodup_cons.mp hnd).1 (h ▸ hxr)
      rw [if_neg hxq, ih (List.nodup_cons.mp hnd).2 hxr]

theorem sum_map_add_nat (f g : α → ℕ) :
    ∀ l : List α, (l.map (fun x => f x + g x)).sum = (l.map f).sum + (l.map g).sum := by
  intro l
  induction l with
  | nil => rfl
  | cons x xs ih =>
    simp only [List.map_cons, List.sum_cons, ih]
    omega

theorem sum_counts (f : ℕ → α) :
    ∀ (L : List ℕ) (pages : List α), pages.Nodup → (∀ i ∈ L, f i ∈ pages) →
      (pages.map (fun p => ((L.filter (fun i => f i = p)).length))).sum = L.length := by
  intro L
  induction L with
  | nil =>
    intro pages _ _
    simp
  | cons j L' ih =>
    intro pages hnd hmem
    have h1 := ih pages hnd (fun i hi => hmem i (List.mem_cons_of_mem j hi))
    have hsplit : ∀ p : α, (((j :: L').filter (fun i => f i = p)).length)
        = (if f j = p then 1 else 0) + (L'.filter (fun i => f i = p)).length := by
      intro p
      rw [List.filter_cons]
      by_cases h : f j = p
      · rw [if_pos (by simp [h]), if_pos h, List.length_cons]
        omega
      · rw [if_neg (by simp [h]), if_neg h]
        omega
    have hmap : pages.map (fun p => (((j :: L').filter (fun i => f i = p)).length))
        = pages.map (fun p =>
            (if f j = p then 1 else 0) + (L'.filter (fun i => f i = p)).length) := by
      exact List.map_congr_left (fun p _ => hsplit p)
    rw [hmap, sum_map_add_nat, h1,
      sum_indicator (f j) pages hnd (hmem j (List.mem_cons_self j L')), List.length_cons]
    omega

theorem sum_map_div (g : α → ℚ) (b : ℚ) :
    ∀ l : List α, (l.map (fun x => g x / b)).sum = (l.map g).sum / b := by
  intro l
  induction l with
  | nil => simp
  | cons x xs ih => simp [ih, add_div]

theorem sum_map_cast (g : α → ℕ) :
    ∀ l : List α, (l.map (fun x => ((g x : ℕ) : ℚ))).sum = (((l.map g).sum : ℕ) : ℚ) := by
  intro l
  induction l with
  | nil => simp
  | cons x xs ih => simp [ih]

theorem sample_tally (c : Corpus α) (d : ℚ) (n : ℕ) (start : α) (rand : ℕ → ℚ)
    (hne : c.pages ≠ []) (hn : 1 ≤ n) (hstart : start ∈ c.pages) :
    ∃ m, sample_pagerank c d n start rand = some m ∧
      (∀ p, m p = ((((List.range (n - 1)).filter
          (fun i => walkFrom c d start rand i = p)).length : ℕ) : ℚ) / (n : ℚ)) ∧
      (c.pages.map m).sum = ((n : ℚ) - 1) / (n : ℚ) := by
  have hie : ¬ (c.pages.isEmpty = true) := by
    simpa [List.isEmpty_iff] using hne
  have hn0 : ¬ (n = 0) := by omega
  have hcounts : ∀ p, sampleLoop c d rand 0 (n - 1) start (fun _ => 0) p
      = ((List.range (n - 1)).filter (fun i => walkFrom c d start rand i = p)).length := by
    intro p
    have h0 : walkFrom c d start rand 0 = start := rfl
    have h := sampleLoop_eq_tally c d start rand (n - 1) 0 (fun _ => 0) p
    rw [h0] at h
    rw [h, List.range_eq_range']
    omega
  refine ⟨fun p => ((sampleLoop c d rand 0 (n - 1) start (fun _ => 0) p : ℕ) : ℚ) / (n : ℚ),
    ?_, ?_, ?_⟩
  · rw [sample_pagerank, if_neg hie, if_neg hn0]
  · intro p
    exact congrArg (fun k : ℕ => ((k : ℚ) / (n : ℚ))) (hcounts p)
  · have hmc : (c.pages.map (fun p =>
        ((sampleLoop c d rand 0 (n - 1) start (fun _ => 0) p : ℕ) : ℚ) / (n : ℚ)))
        = c.pages.map (fun p =>
            ((((List.range (n - 1)).filter
              (fun i => walkFrom c d start rand i = p)).length : ℕ) : ℚ) / (n : ℚ)) :=
      List.map_congr_left (fun p _ => by rw [hcounts p])
    rw [hmc, sum_map_div, sum_map_cast,
      sum_counts (walkFrom c d start rand) (List.range (n - 1)) c.pages c.nodup
        (fun i _ => walkFrom_mem c d start rand hne hstart i),
      List.length_range, Nat.cast_sub hn, Nat.cast_one]

/-- C4: for a non-empty graph, any damping factor, any n ≥ 1, a start
page of the graph and any stream of random draws, the sampler returns a
mapping whose value at page p is (number of walk positions i < n−1 that
equal p)/n — the n-th drawn page, position n−1 of the walk, is never
tallied — and whose values over the graph sum to exactly (n−1)/n. -/
theorem sample_pagerank_tally (c : Corpus α) (d : ℚ) (n : ℕ) (start : α) (rand : ℕ → ℚ)
    (hne : c.pages ≠ []) (hn : 1 ≤ n) (hstart : start ∈ c.pages) :
    ∃ m, sample_pagerank c d n start rand = some m ∧
      (∀ p, m p = ((((List.range (n - 1)).filter
          (fun i => walkFrom c d start rand i = p)).length : ℕ) : ℚ) / (n : ℚ)) ∧
      (c.pages.map m).sum = ((n : ℚ) - 1) / (n : ℚ) :=
  sample_tally c d n start rand hne hn hstart

theorem sample_pagerank_tally_witness :
    (corpus2.pages ≠ [] ∧ 1 ≤ 3 ∧ 0 ∈ corpus2.pages) ∧
    (∃ m, sample_pagerank corpus2 ((17 : ℚ)/20) 3 0 (fun _ => 0) = some m ∧
      (∀ p, m p = ((((List.range (3 - 1)).filter
          (fun i => walkFrom corpus2 ((17 : ℚ)/20) 0 (fun _ => 0) i = p)).length : ℕ) : ℚ) / ((3 : ℕ) : ℚ)) ∧
      (corpus2.pages.map m).sum = (((3 : ℕ) : ℚ) - 1) / ((3 : ℕ) : ℚ)) :=
  ⟨⟨by decide, by norm_num, by decide⟩,
    sample_pagerank_tally corpus2 ((17 : ℚ)/20) 3 0 (fun _ => 0)
      (by decide) (by norm_num) (by decide)⟩

theorem iterateLoop_succ (c : Corpus α) (d : ℚ) (k : ℕ) (r : α → ℚ) :
    iterateLoop c d (k + 1) r
      = if (sweep c d r).2 = c.pages.length then some (sweep c d r).1
        else iterateLoop c d k (sweep c d r).1 := rfl

theorem singleC_update (d : ℚ) (r : ℕ → ℚ) (p : ℕ) :
    updatePage singleC d r p = 1 - d := by
  norm_num [updatePage, singleC]

theorem singleC_sweep_fst (d : ℚ) (r : ℕ → ℚ) :
    (sweep singleC d r).1 0 = 1 - d := by
  simp only [sweep, show singleC.pages = [0] from rfl, List.foldl_cons, List.foldl_nil]
  have h1 : (sweepStep singleC d (r, 0) 0).1 0 = updatePage singleC d r 0 := by
    simp [sweepStep]
  rw [h1, singleC_update]

theorem singleC_sweep_snd (d : ℚ) (r : ℕ → ℚ) :
    (sweep singleC d r).2 = if |1 - d - r 0| < 1/1000 then 1 else 0 := by
  simp only [sweep, show singleC.pages = [0] from rfl, List.foldl_cons, List.foldl_nil]
  have h1 : (sweepStep singleC d (r, 0) 0).2
      = if |updatePage singleC d r 0 - r 0| < 1/1000 then 1 else 0 := by
    simp [sweepStep]
  rw [h1, singleC_update]

theorem singleC_iterate (d : ℚ) :
    ∃ m, iterate_pagerank singleC d 2 = some m ∧ m 0 = 1 - d := by
  unfold iterate_pagerank
  by_cases hc : (sweep singleC d (fun _ => 1 / (singleC.pages.length : ℚ))).2
      = singleC.pages.length
  · refine ⟨(sweep singleC d (fun _ => 1 / (singleC.pages.length : ℚ))).1,
      ?_, singleC_sweep_fst d _⟩
    rw [iterateLoop_succ, if_pos hc]
  · refine ⟨(sweep singleC d
        ((sweep singleC d (fun _ => 1 / (singleC.pages.length : ℚ))).1)).1,
      ?_, singleC_sweep_fst d _⟩
    rw [iterateLoop_succ, if_neg hc]
    have hc2 : (sweep singleC d
        ((sweep singleC d (fun _ => 1 / (singleC.pages.length : ℚ))).1)).2
        = singleC.pages.length := by
      rw [singleC_sweep_snd, singleC_sweep_fst]
      norm_num [singleC]
    rw [iterateLoop_succ, if_pos hc2]

theorem singleC_sample (d : ℚ) (n : ℕ) (rand : ℕ → ℚ) (hn : 1 ≤ n) :
    ∃ m, sample_pagerank singleC d n 0 rand = some m ∧ m 0 = ((n : ℚ) - 1) / (n : ℚ) := by
  obtain ⟨m, hm, hval, _⟩ := sample_tally singleC d n 0 rand (by decide) hn (by decide)
  refine ⟨m, hm, ?_⟩
  rw [hval 0]
  have hwalk : ∀ i, walkFrom singleC d 0 rand i = 0 := by
    intro i
    have h := walkFrom_mem singleC d 0 rand (by decide) (by decide) i
    simpa [singleC] using h
  have hfilter : (List.range (n - 1)).filter (fun i => walkFrom singleC d 0 rand i = 0)
      = List.range (n - 1) := by
    refine List.filter_eq_self.mpr ?_
    intro a _
    simp [hwalk a]
  rw [hfilter, List.length_range, Nat.cast_sub hn, Nat.cast_one]

/-- C6 counterexample: on the single isolated dead-end page, with
d = 17/20 the iterative solver returns rank 3/20 ≠ 1, and with n = 4
samples the sampling estimator returns rank 3/4 ≠ 1: neither estimator
assigns the node rank 1.0. -/
theorem single_node_not_one :
    (Option.map (fun m => m 0) (iterate_pagerank singleC ((17 : ℚ)/20) 2)
        = some (3/20) ∧ (3/20 : ℚ) ≠ 1) ∧
    (Option.map (fun m => m 0) (sample_pagerank singleC ((17 : ℚ)/20) 4 0 (fun _ => 0))
        = some (3/4) ∧ (3/4 : ℚ) ≠ 1) := by
  obtain ⟨m1, hm1, hv1⟩ := singleC_iterate ((17 : ℚ)/20)
  obtain ⟨m2, hm2, hv2⟩ := singleC_sample ((17 : ℚ)/20) 4 (fun _ => 0) (by norm_num)
  refine ⟨⟨?_, by norm_num⟩, ⟨?_, by norm_num⟩⟩
  · rw [hm1, Option.map_some', hv1]
    norm_num
  · rw [hm2, Option.map_some', hv2]
    norm_num

/-- C6 amended: for the single isolated dead-end page, for every damping
d ∈ (0,1) the iterative solver returns rank exactly 1−d (the dead end's
mass leaks and is not redistributed), and for every n ≥ 1 and any random
stream the sampling estimator returns rank exactly (n−1)/n; both equal
1.0 only in the limits d→0 and n→∞. -/
theorem single_node_ranks (d : ℚ) (n : ℕ) (rand : ℕ → ℚ)
    (hd0 : 0 < d) (hd1 : d < 1) (hn : 1 ≤ n) :
    (∃ m, iterate_pagerank singleC d 2 = some m ∧ m 0 = 1 - d) ∧
    (∃ m, sample_pagerank singleC d n 0 rand = some m ∧ m 0 = ((n : ℚ) - 1) / (n : ℚ)) :=
  ⟨singleC_iterate d, singleC_sample d n rand hn⟩

theorem single_node_ranks_witness :
    (0 < (17 : ℚ)/20 ∧ (17 : ℚ)/20 < 1 ∧ 1 ≤ 4) ∧
    ((∃ m, iterate_pagerank singleC ((17 : ℚ)/20) 2 = some m ∧ m 0 = 1 - (17 : ℚ)/20) ∧
      (∃ m, sample_pagerank singleC ((17 : ℚ)/20) 4 0 (fun _ => 0) = some m ∧
        m 0 = (((4 : ℕ) : ℚ) - 1) / ((4 : ℕ) : ℚ))) :=
  ⟨⟨by norm_num, by norm_num, by norm_num⟩,
    single_node_ranks ((17 : ℚ)/20) 4 (fun _ => 0) (by norm_num) (by norm_num) (by norm_num)⟩

/-- C5 counterexample: on the zero-node graph the iterative solver does
not fail at all: it validates nothing, its first sweep trivially counts
0 = 0 pages converged, and it returns a mapping. -/
theorem empty_graph_iterate_returns :
    ∃ m, iterate_pagerank emptyC ((17 : ℚ)/20) 1 = some m := by
  have hsw : sweep emptyC ((17 : ℚ)/20) (fun _ => 1 / (emptyC.pages.length : ℚ))
      = ((fun _ => 1 / (emptyC.pages.length : ℚ)), 0) := by
    simp [sweep, show emptyC.pages = [] from rfl]
  refine ⟨(fun _ => 1 / (emptyC.pages.length : ℚ)), ?_⟩
  rw [iterate_pagerank, iterateLoop_succ, hsw]
  simp [show emptyC.pages = [] from rfl]

/-- C5 amended: neither estimator performs eager validation.  The
sampling estimator fails only with the uncaught exceptions its body
happens to raise (modelled by `none`): the IndexError of random.choice
on a zero-node graph, and the ZeroDivisionError of the final
normalisation when n = 0.  The iterative solver never fails: on a
zero-node graph it returns its (vacuous) initial mapping after one sweep
instead of reporting an error. -/
theorem no_eager_validation (c : Corpus α) (d : ℚ) (n : ℕ) (start : α)
    (rand : ℕ → ℚ) (fuel : ℕ) (hf : 1 ≤ fuel) :
    (c.pages = [] → sample_pagerank c d n start rand = none) ∧
    (n = 0 → sample_pagerank c d n start rand = none) ∧
    (c.pages = [] → iterate_pagerank c d fuel
        = some (fun _ => 1 / (c.pages.length : ℚ))) := by
  refine ⟨?_, ?_, ?_⟩
  · intro h
    rw [sample_pagerank, if_pos (by simp [h])]
  · intro h
    subst h
    rw [sample_pagerank]
    split
    · rfl
    · rw [if_pos rfl]
  · intro h
    obtain ⟨k, rfl⟩ : ∃ k, fuel = k + 1 := ⟨fuel - 1, by omega⟩
    rw [iterate_pagerank, iterateLoop_succ]
    have hsw : sweep c d (fun _ => 1 / (c.pages.length : ℚ))
        = ((fun _ => 1 / (c.pages.length : ℚ)), 0) := by
      simp [sweep, h]
    rw [hsw]
    simp [h]

theorem no_eager_validation_witness :
    (1 ≤ 1) ∧
    ((emptyC.pages = [] → sample_pagerank emptyC ((17 : ℚ)/20) 0 0 (fun _ => 0) = none) ∧
      ((0 : ℕ) = 0 → sample_pagerank emptyC ((17 : ℚ)/20) 0 0 (fun _ => 0) = none) ∧
      (emptyC.pages = [] → iterate_pagerank emptyC ((17 : ℚ)/20) 1
          = some (fun _ => 1 / (emptyC.pages.length : ℚ)))) :=
  ⟨le_rfl, no_eager_validation emptyC ((17 : ℚ)/20) 0 0 (fun _ => 0) 1 le_rfl⟩

end PageRank
